import Mathlib

/-!
Verification of the AVL tree (`Include/Structures/AVLTree.hpp`) and the
min/max accessors of the binary search tree
(`Include/Structures/BinarySearchTree.hpp`) from the DSAUtility repository.

The C++ classes are shallowly embedded: node trees become inductive types,
`unique_ptr` children become subtrees (`leaf` models a null pointer), the
mutating member functions become pure functions from states to states, and
`throw` becomes a distinguished result constructor.  Keys are modelled by
`Int` (the templates are instantiated at a totally ordered type).  `size_t`
arithmetic is modelled by `Nat`; the only place where the machine width is
observable is `depth`, whose `static_cast<size_t>(-1)` sentinel is written
out as `2^64 - 1`.
-/

/-- `AVLNode<T>`: `data`, `left`, `right`, cached `height`.
`leaf` stands for a null `unique_ptr`. -/
inductive AVLNode where
  | leaf : AVLNode
  | node (data : Int) (left : AVLNode) (right : AVLNode) (height : Int) : AVLNode
deriving DecidableEq, Repr

/-- `get_height`: `node ? node->height : 0` (reads the cached field). -/
def get_height : AVLNode → Int
  | .leaf => 0
  | .node _ _ _ h => h

/-- `get_balance`: `node ? get_height(node->left) - get_height(node->right) : 0`. -/
def get_balance : AVLNode → Int
  | .leaf => 0
  | .node _ l r _ => get_height l - get_height r

/-- Reads `node->data`.  The C++ dereferences the pointer, which is undefined
behaviour on null; every use below is guarded by facts implying the tree is a
node, so the `leaf` default never matters. -/
def node_data : AVLNode → Int
  | .leaf => 0
  | .node d _ _ _ => d

/-- `right_rotate(y)`: `x = y->left; y->left = x->right; x->right = y;`
then recomputes `y->height` before `x->height` from the cached child heights.
The C++ has undefined behaviour when `y` or `y->left` is null; that case is
modelled by returning the input unchanged (all call sites are guarded by
balance conditions that force a left child to exist). -/
def right_rotate : AVLNode → AVLNode
  | .node yd (.node xd xl xr _) yr _ =>
      let y := AVLNode.node yd xr yr (1 + max (get_height xr) (get_height yr))
      AVLNode.node xd xl y (1 + max (get_height xl) (get_height y))
  | t => t

/-- `left_rotate(x)`: mirror image of `right_rotate`; recomputes `x->height`
before `y->height`. -/
def left_rotate : AVLNode → AVLNode
  | .node xd xl (.node yd yl yr _) _ =>
      let x := AVLNode.node xd xl yl (1 + max (get_height xl) (get_height yl))
      AVLNode.node yd x yr (1 + max (get_height x) (get_height yr))
  | t => t

/-- The tail of `insert_recursive` that runs after the recursive call
replaced one child (`l` and `r` are the children at that point): update
`node->height`, compute the balance factor, and apply the four rotation
cases, which compare the inserted `value` with the child keys.  In the
double-rotation cases the node handed to the outer rotation still carries
the height computed before its child was rotated, exactly as in the C++
(the outer rotation overwrites it). -/
def insert_fixup (value d : Int) (l r : AVLNode) : AVLNode :=
  let h := 1 + max (get_height l) (get_height r)
  let balance := get_height l - get_height r
  if balance > 1 ∧ value < node_data l then
    right_rotate (AVLNode.node d l r h)
  else if balance < -1 ∧ value > node_data r then
    left_rotate (AVLNode.node d l r h)
  else if balance > 1 ∧ value > node_data l then
    right_rotate (AVLNode.node d (left_rotate l) r h)
  else if balance < -1 ∧ value < node_data r then
    left_rotate (AVLNode.node d l (right_rotate r) h)
  else
    AVLNode.node d l r h

/-- `AVLTree::insert_recursive`: descend by comparison, create a node at a
null slot, silently skip duplicates (returning the node unchanged, before
any height update), and rebalance on unwind. -/
def insert_recursive (t : AVLNode) (value : Int) : AVLNode :=
  match t with
  | .leaf => .node value .leaf .leaf 1
  | .node d l r h =>
    if value < d then
      insert_fixup value d (insert_recursive l value) r
    else if value > d then
      insert_fixup value d l (insert_recursive r value)
    else
      .node d l r h

/-- `find_min`: `if (!node || !node->left) return node; recurse left`. -/
def find_min : AVLNode → AVLNode
  | .leaf => .leaf
  | .node d .leaf r h => .node d .leaf r h
  | .node _ (.node dl ll rl hl) _ _ => find_min (.node dl ll rl hl)

/-- The tail of `remove_recursive` after a child was replaced: update the
height, compute the balance factor, and apply the four rotation cases,
which here inspect the balance factor of the heavier child. -/
def remove_fixup (d : Int) (l r : AVLNode) : AVLNode :=
  let h := 1 + max (get_height l) (get_height r)
  let balance := get_height l - get_height r
  if balance > 1 ∧ get_balance l ≥ 0 then
    right_rotate (AVLNode.node d l r h)
  else if balance > 1 ∧ get_balance l < 0 then
    right_rotate (AVLNode.node d (left_rotate l) r h)
  else if balance < -1 ∧ get_balance r ≤ 0 then
    left_rotate (AVLNode.node d l r h)
  else if balance < -1 ∧ get_balance r > 0 then
    left_rotate (AVLNode.node d l (right_rotate r) h)
  else
    AVLNode.node d l r h

/-- `AVLTree::remove_recursive`: descend by comparison; at the match, splice
for at most one child, otherwise copy the in-order successor's key
(`find_min` of the right subtree) into the node and delete it from the right
subtree; rebalance on unwind.  The childless and one-child cases return the
spliced child directly, without passing through the height/rebalance tail,
exactly as the early `return`s in the C++. -/
def remove_recursive (t : AVLNode) (value : Int) : AVLNode :=
  match t with
  | .leaf => .leaf
  | .node d l r _ =>
    if value < d then
      remove_fixup d (remove_recursive l value) r
    else if value > d then
      remove_fixup d l (remove_recursive r value)
    else
      if l = .leaf then r
      else if r = .leaf then l
      else
        let m := node_data (find_min r)
        remove_fixup m l (remove_recursive r m)

/-- `find_node`: `if (!node || node->data == value) return node;` then
descend left on `value < data`, else right. -/
def find_node (t : AVLNode) (value : Int) : AVLNode :=
  match t with
  | .leaf => .leaf
  | .node d l r h =>
    if d = value then .node d l r h
    else if value < d then find_node l value
    else find_node r value

/-- `inorder_recursive`: left subtree, node, right subtree. -/
def inorder_recursive : AVLNode → List Int
  | .leaf => []
  | .node d l r _ => inorder_recursive l ++ d :: inorder_recursive r

/-- `height_recursive`: recomputed (not cached) height, `size_t`-valued. -/
def height_recursive : AVLNode → Nat
  | .leaf => 0
  | .node _ l r _ => 1 + max (height_recursive l) (height_recursive r)

/-- Number of nodes actually stored in a tree (not a member of the C++
class; used to state how the `size_` counter relates to the tree). -/
def node_count : AVLNode → Nat
  | .leaf => 0
  | .node _ l r _ => 1 + node_count l + node_count r

/-- The loop of `AVLTree::depth` once `find_node` succeeded: walk from the
root by the same comparisons, counting edges, until the node found by
`find_node` is reached.  `find_node` returns the first key match on this
comparison path, so stopping at the first key match retraces the pointer
comparison `current != node` of the C++. -/
def depth_loop (value : Int) : AVLNode → Nat
  | .leaf => 0
  | .node d l r _ =>
    if d = value then 0
    else if value < d then depth_loop value l + 1
    else depth_loop value r + 1

/-- `AVLTree<T>` state: owned root plus the `size_` counter. -/
structure AVLTree where
  root : AVLNode
  size_ : Nat
deriving DecidableEq, Repr

/-- `AVLTree()` : `root(nullptr), size_(0)`. -/
def AVLTree.emptyTree : AVLTree := ⟨.leaf, 0⟩

/-- `AVLTree::insert`: replace the root by `insert_recursive(root, value)`
and increment `size_` unconditionally (also when the value was a duplicate
and the tree is unchanged). -/
def AVLTree.insert (s : AVLTree) (value : Int) : AVLTree :=
  ⟨insert_recursive s.root value, s.size_ + 1⟩

/-- `AVLTree::contains`: `find_node(root, value) != nullptr`. -/
def AVLTree.contains (s : AVLTree) (value : Int) : Bool :=
  decide (find_node s.root value ≠ AVLNode.leaf)

/-- `AVLTree::remove`: only when `contains(value)`, replace the root by
`remove_recursive(root, value)` and decrement `size_`. -/
def AVLTree.remove (s : AVLTree) (value : Int) : AVLTree :=
  if s.contains value then ⟨remove_recursive s.root value, s.size_ - 1⟩ else s

/-- `AVLTree::size`. -/
def AVLTree.size (s : AVLTree) : Nat := s.size_

/-- `AVLTree::inorder`. -/
def AVLTree.inorder (s : AVLTree) : List Int := inorder_recursive s.root

/-- `AVLTree::height`: `height_recursive(root.get())`. -/
def AVLTree.height (s : AVLTree) : Nat := height_recursive s.root

/-- `AVLTree::depth`: `static_cast<size_t>(-1)` (that is, `2^64 - 1`) when
`find_node` returns null, otherwise the edge count of the comparison walk. -/
def AVLTree.depth (s : AVLTree) (value : Int) : Nat :=
  if find_node s.root value = AVLNode.leaf then 18446744073709551615
  else depth_loop value s.root

/-- `AVLTree::balance`: read `inorder()`, `clear()`, and reinsert every
element in order through the public `insert`. -/
def AVLTree.balance (s : AVLTree) : AVLTree :=
  s.inorder.foldl AVLTree.insert ⟨.leaf, 0⟩

/-- AVL tree states reachable through the public mutators from the default
constructor. -/
inductive Reachable : AVLTree → Prop
  | empty : Reachable AVLTree.emptyTree
  | insert (s : AVLTree) (v : Int) : Reachable s → Reachable (s.insert v)
  | remove (s : AVLTree) (v : Int) : Reachable s → Reachable (s.remove v)

/-- Sorted insertion into a key list, skipping a key that is already
present: the effect of `insert_recursive` on the in-order key sequence. -/
def oinsert (v : Int) : List Int → List Int
  | [] => [v]
  | x :: xs => if v < x then v :: x :: xs else if v = x then x :: xs else x :: oinsert v xs

/-- Removal of a key from a sorted key list (a no-op when the key is not
there): the effect of `remove_recursive` on the in-order key sequence. -/
def oerase (v : Int) : List Int → List Int
  | [] => []
  | x :: xs => if v < x then x :: xs else if v = x then xs else x :: oerase v xs

/-- The cached `height` fields are correct throughout the tree:
`height = 1 + max(height(left), height(right))` at every node. -/
def heights_ok : AVLNode → Bool
  | .leaf => true
  | .node _ l r h =>
    decide (h = 1 + max (get_height l) (get_height r)) && heights_ok l && heights_ok r

/-- Every node's balance factor, computed from the recomputed (real) subtree
heights, lies in `{-1, 0, 1}`. -/
def balanced_all : AVLNode → Bool
  | .leaf => true
  | .node _ l r _ =>
    (decide ((height_recursive l : Int) - (height_recursive r : Int) = -1)
      || decide ((height_recursive l : Int) - (height_recursive r : Int) = 0)
      || decide ((height_recursive l : Int) - (height_recursive r : Int) = 1))
    && balanced_all l && balanced_all r

/-- The AVL shape invariant on cached heights: children are AVL, the cached
height is one more than the larger cached child height, and the cached
balance factor is within one. -/
inductive Avl : AVLNode → Prop
  | leaf : Avl .leaf
  | node {d : Int} {l r : AVLNode} {h : Int} :
      Avl l → Avl r →
      h = 1 + max (get_height l) (get_height r) →
      -1 ≤ get_height l - get_height r →
      get_height l - get_height r ≤ 1 →
      Avl (.node d l r h)

/-- The number of edges from the root to the node holding a key, defined by
plain tree search (left subtree first), independently of the BinarySearchTree descent
that the code performs. -/
def edge_depth (t : AVLNode) (k : Int) : Option Nat :=
  match t with
  | .leaf => none
  | .node d l r _ =>
    if d = k then some 0
    else match edge_depth l k with
      | some n => some (n + 1)
      | none =>
        match edge_depth r k with
        | some n => some (n + 1)
        | none => none

/-!
Embedding of `BinarySearchTree<T>` (only what claim C3 needs: `insert`,
`remove`, `contains`, `min`, `max`, the in-order traversal, and the `size_`
counter).  `BSTNode` carries no height; the `parent` pointer is never read
by these members and is omitted.
-/

/-- `BSTNode<T>` shape: `data`, `left`, `right`. -/
inductive BSTNode where
  | leaf : BSTNode
  | node (data : Int) (left : BSTNode) (right : BSTNode) : BSTNode
deriving DecidableEq, Repr

/-- `BinarySearchTree::insert_recursive`: descend by comparison, create a
node at a null slot, silently skip duplicates. -/
def bst_insert_recursive (t : BSTNode) (value : Int) : BSTNode :=
  match t with
  | .leaf => .node value .leaf .leaf
  | .node d l r =>
    if value < d then .node d (bst_insert_recursive l value) r
    else if value > d then .node d l (bst_insert_recursive r value)
    else .node d l r

/-- `BinarySearchTree`'s `find_min` helper: leftmost descent, null on null. -/
def bst_find_min : BSTNode → BSTNode
  | .leaf => .leaf
  | .node d .leaf r => .node d .leaf r
  | .node _ (.node dl ll rl) _ => bst_find_min (.node dl ll rl)

/-- `BinarySearchTree`'s `find_max` helper: rightmost descent, null on null. -/
def bst_find_max : BSTNode → BSTNode
  | .leaf => .leaf
  | .node d l .leaf => .node d l .leaf
  | .node _ _ (.node dr lr rr) => bst_find_max (.node dr lr rr)

/-- `BinarySearchTree::remove_recursive`: plain BinarySearchTree deletion by in-order
successor copy, no rebalancing. -/
def bst_remove_recursive (t : BSTNode) (value : Int) : BSTNode :=
  match t with
  | .leaf => .leaf
  | .node d l r =>
    if value < d then .node d (bst_remove_recursive l value) r
    else if value > d then .node d l (bst_remove_recursive r value)
    else
      match l, r with
      | .leaf, _ => r
      | .node dl ll rl, .leaf => .node dl ll rl
      | .node dl ll rl, .node dr lr rr =>
        let m := bst_node_data (bst_find_min (.node dr lr rr))
        .node m (.node dl ll rl) (bst_remove_recursive (.node dr lr rr) m)
where
  /-- Reads `node->data` (undefined behaviour on null in the C++; the use is
  guarded by the right child being a node). -/
  bst_node_data : BSTNode → Int
    | .leaf => 0
    | .node d _ _ => d

/-- `BinarySearchTree`'s `find_node` helper. -/
def bst_find_node (t : BSTNode) (value : Int) : BSTNode :=
  match t with
  | .leaf => .leaf
  | .node d l r =>
    if d = value then .node d l r
    else if value < d then bst_find_node l value
    else bst_find_node r value

/-- `BinarySearchTree::inorder`. -/
def bst_inorder : BSTNode → List Int
  | .leaf => []
  | .node d l r => bst_inorder l ++ d :: bst_inorder r

/-- `BinarySearchTree<T>` state: root plus `size_`. -/
structure BinarySearchTree where
  root : BSTNode
  size_ : Nat
deriving DecidableEq, Repr

/-- `BinarySearchTree()`. -/
def BinarySearchTree.emptyTree : BinarySearchTree := ⟨.leaf, 0⟩

/-- `BinarySearchTree::insert`: unconditional `size_++`. -/
def BinarySearchTree.insert (s : BinarySearchTree) (value : Int) : BinarySearchTree :=
  ⟨bst_insert_recursive s.root value, s.size_ + 1⟩

/-- `BinarySearchTree::contains`. -/
def BinarySearchTree.contains (s : BinarySearchTree) (value : Int) : Bool :=
  decide (bst_find_node s.root value ≠ BSTNode.leaf)

/-- `BinarySearchTree::remove`: guarded by `contains`. -/
def BinarySearchTree.remove (s : BinarySearchTree) (value : Int) : BinarySearchTree :=
  if s.contains value then ⟨bst_remove_recursive s.root value, s.size_ - 1⟩ else s

/-- Outcome of `BinarySearchTree::min` / `::max`: either the
`std::out_of_range("AVLNode is empty")` throw, or a returned key, or — when the
`empty()` guard passes while the root pointer is null — a dereference of a
null pointer (undefined behaviour), kept as its own outcome. -/
inductive MinResult where
  | emptyError : MinResult
  | nullDeref : MinResult
  | value (v : Int) : MinResult
deriving DecidableEq, Repr

/-- `BinarySearchTree::min`: `if (empty()) throw std::out_of_range("AVLNode is
empty"); return find_min(root.get())->data;` — note the guard tests the
`size_` counter, not the root pointer. -/
def BinarySearchTree.min (s : BinarySearchTree) : MinResult :=
  if s.size_ = 0 then .emptyError
  else
    match bst_find_min s.root with
    | .leaf => .nullDeref
    | .node d _ _ => .value d

/-- `BinarySearchTree::max`: mirror image of `BinarySearchTree.min`. -/
def BinarySearchTree.max (s : BinarySearchTree) : MinResult :=
  if s.size_ = 0 then .emptyError
  else
    match bst_find_max s.root with
    | .leaf => .nullDeref
    | .node d _ _ => .value d

/-! ### Basic facts about the AVL invariant and the traversal -/

theorem avl_height_nonneg {t : AVLNode} (h : Avl t) : 0 ≤ get_height t := by
  induction h with
  | leaf => simp [get_height]
  | node hl hr hh b1 b2 ihl ihr => simp only [get_height]; omega

theorem avl_height_real {t : AVLNode} (h : Avl t) :
    get_height t = (height_recursive t : Int) := by
  induction h with
  | leaf => simp [get_height, height_recursive]
  | node hl hr hh b1 b2 ihl ihr =>
    simp only [get_height, height_recursive]
    push_cast
    omega

theorem avl_heights_ok {t : AVLNode} (h : Avl t) : heights_ok t = true := by
  induction h with
  | leaf => rfl
  | node hl hr hh b1 b2 ihl ihr => simp [heights_ok, ihl, ihr, hh]

theorem avl_balanced_all {t : AVLNode} (h : Avl t) : balanced_all t = true := by
  induction h with
  | leaf => rfl
  | node hl hr hh b1 b2 ihl ihr =>
    have el := avl_height_real hl
    have er := avl_height_real hr
    simp only [balanced_all, ihl, ihr, Bool.and_true, Bool.or_eq_true, decide_eq_true_eq]
    omega

theorem node_count_eq_length (t : AVLNode) :
    node_count t = (inorder_recursive t).length := by
  induction t with
  | leaf => rfl
  | node d l r h ihl ihr => simp [node_count, inorder_recursive, ihl, ihr]; omega

theorem inorder_right_rotate (t : AVLNode) :
    inorder_recursive (right_rotate t) = inorder_recursive t := by
  match t with
  | .leaf => rfl
  | .node _ .leaf _ _ => rfl
  | .node yd (.node xd xl xr hx) yr hy =>
    simp [right_rotate, inorder_recursive, List.append_assoc]

theorem inorder_left_rotate (t : AVLNode) :
    inorder_recursive (left_rotate t) = inorder_recursive t := by
  match t with
  | .leaf => rfl
  | .node _ _ .leaf _ => rfl
  | .node xd xl (.node yd yl yr hy) hx =>
    simp [left_rotate, inorder_recursive, List.append_assoc]

theorem inorder_insert_fixup (v d : Int) (l r : AVLNode) :
    inorder_recursive (insert_fixup v d l r)
      = inorder_recursive l ++ d :: inorder_recursive r := by
  simp only [insert_fixup]
  split_ifs <;>
    simp [inorder_right_rotate, inorder_left_rotate, inorder_recursive, List.append_assoc]

theorem inorder_remove_fixup (d : Int) (l r : AVLNode) :
    inorder_recursive (remove_fixup d l r)
      = inorder_recursive l ++ d :: inorder_recursive r := by
  simp only [remove_fixup]
  split_ifs <;>
    simp [inorder_right_rotate, inorder_left_rotate, inorder_recursive, List.append_assoc]

theorem pairwise_middle {L R : List Int} {d : Int}
    (h : List.Pairwise (· < ·) (L ++ d :: R)) :
    List.Pairwise (· < ·) L ∧ List.Pairwise (· < ·) R
      ∧ (∀ x ∈ L, x < d) ∧ (∀ y ∈ R, d < y) := by
  rw [List.pairwise_append, List.pairwise_cons] at h
  exact ⟨h.1, h.2.1.2, fun x hx => h.2.2 x hx d (by simp), h.2.1.1⟩

/-! ### The effect of insertion and removal on sorted key lists -/

theorem oinsert_append_lt {v d : Int} (h : v < d) (L R : List Int) :
    oinsert v (L ++ d :: R) = oinsert v L ++ d :: R := by
  induction L with
  | nil => simp [oinsert, h]
  | cons x xs ih =>
    simp only [List.cons_append, oinsert, List.append_eq]
    split_ifs <;> simp [ih]

theorem oinsert_append_gt {v d : Int} (h : d < v) (L R : List Int)
    (hL : ∀ x ∈ L, x < v) :
    oinsert v (L ++ d :: R) = L ++ d :: oinsert v R := by
  induction L with
  | nil =>
    simp only [List.nil_append, oinsert]
    split_ifs with h1 h2
    · omega
    · omega
    · rfl
  | cons x xs ih =>
    have hx : x < v := hL x (by simp)
    simp only [List.cons_append, oinsert, List.append_eq]
    split_ifs with h1 h2
    · omega
    · omega
    · rw [ih (fun y hy => hL y (by simp [hy]))]

theorem oinsert_mem_eq {v : Int} (L R : List Int) (hL : ∀ x ∈ L, x < v) :
    oinsert v (L ++ v :: R) = L ++ v :: R := by
  induction L with
  | nil => simp [oinsert]
  | cons x xs ih =>
    have hx : x < v := hL x (by simp)
    simp only [List.cons_append, oinsert, List.append_eq]
    split_ifs with h1 h2
    · omega
    · omega
    · rw [ih (fun y hy => hL y (by simp [hy]))]

theorem oinsert_gt_all {v : Int} (L : List Int) (hL : ∀ x ∈ L, x < v) :
    oinsert v L = L ++ [v] := by
  induction L with
  | nil => rfl
  | cons x xs ih =>
    have hx : x < v := hL x (by simp)
    simp only [oinsert]
    split_ifs with h1 h2
    · omega
    · omega
    · rw [ih (fun y hy => hL y (by simp [hy]))]; rfl

theorem mem_oinsert {y v : Int} (L : List Int) :
    y ∈ oinsert v L ↔ y = v ∨ y ∈ L := by
  induction L with
  | nil => simp [oinsert]
  | cons x xs ih =>
    simp only [oinsert]
    split_ifs with h1 h2
    · simp [List.mem_cons]
    · subst h2; simp [List.mem_cons]
    · simp only [List.mem_cons, ih]; tauto

theorem oinsert_pairwise {v : Int} {L : List Int}
    (h : List.Pairwise (· < ·) L) :
    List.Pairwise (· < ·) (oinsert v L) := by
  induction L with
  | nil => simp [oinsert]
  | cons x xs ih =>
    rw [List.pairwise_cons] at h
    obtain ⟨hx, hxs⟩ := h
    simp only [oinsert]
    split_ifs with h1 h2
    · refine List.Pairwise.cons ?_ (List.Pairwise.cons hx hxs)
      intro y hy
      rcases List.mem_cons.1 hy with rfl | hy
      · exact h1
      · exact lt_trans h1 (hx y hy)
    · exact List.Pairwise.cons hx hxs
    · refine List.Pairwise.cons ?_ (ih hxs)
      intro y hy
      rcases (mem_oinsert xs).1 hy with rfl | hy
      · omega
      · exact hx y hy

theorem oerase_append_lt {v d : Int} (h : v < d) (L R : List Int) :
    oerase v (L ++ d :: R) = oerase v L ++ d :: R := by
  induction L with
  | nil => simp [oerase, h, (by omega : v ≠ d)]
  | cons x xs ih =>
    simp only [List.cons_append, oerase, List.append_eq]
    split_ifs <;> simp [ih]

theorem oerase_append_gt {v d : Int} (h : d < v) (L R : List Int)
    (hL : ∀ x ∈ L, x < v) :
    oerase v (L ++ d :: R) = L ++ d :: oerase v R := by
  induction L with
  | nil =>
    simp only [List.nil_append, oerase]
    split_ifs with h1 h2
    · omega
    · omega
    · rfl
  | cons x xs ih =>
    have hx : x < v := hL x (by simp)
    simp only [List.cons_append, oerase, List.append_eq]
    split_ifs with h1 h2
    · omega
    · omega
    · rw [ih (fun y hy => hL y (by simp [hy]))]

theorem oerase_mem_eq {v : Int} (L R : List Int) (hL : ∀ x ∈ L, x < v) :
    oerase v (L ++ v :: R) = L ++ R := by
  induction L with
  | nil => simp [oerase]
  | cons x xs ih =>
    have hx : x < v := hL x (by simp)
    simp only [List.cons_append, oerase, List.append_eq]
    split_ifs with h1 h2
    · omega
    · omega
    · rw [ih (fun y hy => hL y (by simp [hy]))]

theorem oerase_sublist (v : Int) (L : List Int) :
    List.Sublist (oerase v L) L := by
  induction L with
  | nil => simp [oerase]
  | cons x xs ih =>
    simp only [oerase]
    split_ifs with h1 h2
    · exact List.Sublist.refl _
    · exact List.sublist_cons_self x xs
    · exact List.Sublist.cons₂ x ih

theorem oerase_pairwise {v : Int} {L : List Int}
    (h : List.Pairwise (· < ·) L) :
    List.Pairwise (· < ·) (oerase v L) :=
  h.sublist (oerase_sublist v L)

theorem not_mem_oerase {v : Int} {L : List Int}
    (h : List.Pairwise (· < ·) L) : v ∉ oerase v L := by
  induction L with
  | nil => simp [oerase]
  | cons x xs ih =>
    rw [List.pairwise_cons] at h
    obtain ⟨hx, hxs⟩ := h
    simp only [oerase]
    split_ifs with h1 h2
    · intro hv
      rcases List.mem_cons.1 hv with rfl | hv
      · omega
      · exact absurd (hx v hv) (by omega)
    · subst h2
      intro hv
      exact absurd (hx v hv) (by omega)
    · intro hv
      rcases List.mem_cons.1 hv with rfl | hv
      · omega
      · exact ih hxs hv

/-! ### Constructor-level reduction equations (useful rewriting units) -/

theorem get_height_leaf : get_height .leaf = 0 := rfl

theorem get_height_node (d : Int) (l r : AVLNode) (h : Int) :
    get_height (.node d l r h) = h := rfl

theorem get_balance_node (d : Int) (l r : AVLNode) (h : Int) :
    get_balance (.node d l r h) = get_height l - get_height r := rfl

theorem node_data_node (d : Int) (l r : AVLNode) (h : Int) :
    node_data (.node d l r h) = d := rfl

/-! ### Correctness of the insert-side rebalancing step

`insert_fixup v d l r` runs after an insertion of `v` replaced one child;
the hypotheses record what the recursive insertion guarantees: the children
are AVL, their cached height difference is at most 2, and when it is
exactly 2 the grown child leans towards the inserted value. -/

theorem insert_fixup_spec (v d : Int) (l r : AVLNode)
    (hal : Avl l) (har : Avl r)
    (hlo : -2 ≤ get_height l - get_height r)
    (hhi : get_height l - get_height r ≤ 2)
    (hgl : get_height l - get_height r = 2 →
      (get_balance l = 1 ∧ v < node_data l) ∨ (get_balance l = -1 ∧ node_data l < v))
    (hgr : get_height l - get_height r = -2 →
      (get_balance r = 1 ∧ v < node_data r) ∨ (get_balance r = -1 ∧ node_data r < v)) :
    Avl (insert_fixup v d l r)
    ∧ (-1 ≤ get_height l - get_height r → get_height l - get_height r ≤ 1 →
        insert_fixup v d l r = .node d l r (1 + max (get_height l) (get_height r)))
    ∧ (get_height l - get_height r = 2 →
        get_height (insert_fixup v d l r) = get_height l)
    ∧ (get_height l - get_height r = -2 →
        get_height (insert_fixup v d l r) = get_height r) := by
  have hl0 := avl_height_nonneg hal
  have hr0 := avl_height_nonneg har
  by_cases h2 : get_height l - get_height r = 2
  · -- the left child is two higher: a rotation is required
    rcases hal with _ | @⟨dl, a, b, hl, haa, hab, hhl, hbal1, hbal2⟩
    · rw [get_height_leaf] at h2; omega
    have ha0 := avl_height_nonneg haa
    have hb0 := avl_height_nonneg hab
    rw [get_height_node] at h2 hl0
    rcases hgl (by rw [get_height_node]; omega) with ⟨hb, hv⟩ | ⟨hb, hv⟩
    · -- Left-Left: single right rotation
      rw [get_balance_node] at hb
      rw [node_data_node] at hv
      have hfix : insert_fixup v d (.node dl a b hl) r
          = .node dl a (.node d b r (1 + max (get_height b) (get_height r)))
              (1 + max (get_height a) (1 + max (get_height b) (get_height r))) := by
        simp only [insert_fixup]
        rw [if_pos ⟨by rw [get_height_node]; omega, by rw [node_data_node]; exact hv⟩]
        rfl
      rw [hfix]
      refine ⟨?_, ?_, ?_, ?_⟩
      · exact Avl.node haa (Avl.node hab har rfl (by omega) (by omega))
          (by rw [get_height_node]) (by rw [get_height_node]; omega)
          (by rw [get_height_node]; omega)
      · intro c1 c2; rw [get_height_node] at c1 c2; omega
      · intro _; rw [get_height_node, get_height_node]; omega
      · intro hx; rw [get_height_node] at hx; omega
    · -- Left-Right: rotate the left child left, then rotate right
      rw [get_balance_node] at hb
      rw [node_data_node] at hv
      rcases hab with _ | @⟨db, b1, b2, hbh, hba, hbb, hhb, hbb1, hbb2⟩
      · rw [get_height_leaf] at hb; omega
      have hb10 := avl_height_nonneg hba
      have hb20 := avl_height_nonneg hbb
      rw [get_height_node] at hb hb0 hhl hbal1 hbal2
      have hfix : insert_fixup v d (.node dl a (.node db b1 b2 hbh) hl) r
          = .node db (.node dl a b1 (1 + max (get_height a) (get_height b1)))
              (.node d b2 r (1 + max (get_height b2) (get_height r)))
              (1 + max (1 + max (get_height a) (get_height b1))
                (1 + max (get_height b2) (get_height r))) := by
        simp only [insert_fixup]
        rw [if_neg (by rw [node_data_node]; rintro ⟨-, hc⟩; omega),
            if_neg (by rw [get_height_node]; rintro ⟨hc, -⟩; omega),
            if_pos ⟨by rw [get_height_node]; omega, by rw [node_data_node]; exact hv⟩]
        rfl
      rw [hfix]
      refine ⟨?_, ?_, ?_, ?_⟩
      · exact Avl.node
          (Avl.node haa hba rfl (by omega) (by omega))
          (Avl.node hbb har rfl (by omega) (by omega))
          (by rw [get_height_node, get_height_node]) (by rw [get_height_node, get_height_node]; omega)
          (by rw [get_height_node, get_height_node]; omega)
      · intro c1 c2; rw [get_height_node] at c1 c2; omega
      · intro _; rw [get_height_node, get_height_node]; omega
      · intro hx; rw [get_height_node] at hx; omega
  · by_cases hm2 : get_height l - get_height r = -2
    · -- the right child is two higher: mirror image
      rcases har with _ | @⟨dr, c, e, hr, hac, hae, hhr, hbr1, hbr2⟩
      · rw [get_height_leaf] at hm2; omega
      have hc0 := avl_height_nonneg hac
      have he0 := avl_height_nonneg hae
      rw [get_height_node] at hm2 hr0
      rcases hgr (by rw [get_height_node]; omega) with ⟨hb, hv⟩ | ⟨hb, hv⟩
      · -- Right-Left: rotate the right child right, then rotate left
        rw [get_balance_node] at hb
        rw [node_data_node] at hv
        rcases hac with _ | @⟨dc, c1, c2, hch, hca, hcb, hhc, hcc1, hcc2⟩
        · rw [get_height_leaf] at hb; omega
        have hc10 := avl_height_nonneg hca
        have hc20 := avl_height_nonneg hcb
        rw [get_height_node] at hb hc0 hhr hbr1 hbr2
        have hfix : insert_fixup v d l (.node dr (.node dc c1 c2 hch) e hr)
            = .node dc (.node d l c1 (1 + max (get_height l) (get_height c1)))
                (.node dr c2 e (1 + max (get_height c2) (get_height e)))
                (1 + max (1 + max (get_height l) (get_height c1))
                  (1 + max (get_height c2) (get_height e))) := by
          simp only [insert_fixup]
          rw [if_neg (by rw [get_height_node]; rintro ⟨hc, -⟩; omega),
              if_neg (by rw [node_data_node]; rintro ⟨-, hc⟩; omega),
              if_neg (by rw [get_height_node]; rintro ⟨hc, -⟩; omega),
              if_pos ⟨by rw [get_height_node]; omega, by rw [node_data_node]; exact hv⟩]
          rfl
        rw [hfix]
        refine ⟨?_, ?_, ?_, ?_⟩
        · exact Avl.node
            (Avl.node hal hca rfl (by omega) (by omega))
            (Avl.node hcb hae rfl (by omega) (by omega))
            (by rw [get_height_node, get_height_node])
            (by rw [get_height_node, get_height_node]; omega)
            (by rw [get_height_node, get_height_node]; omega)
        · intro c1' c2'; rw [get_height_node] at c1' c2'; omega
        · intro hx; rw [get_height_node] at hx; omega
        · intro _; rw [get_height_node, get_height_node]; omega
      · -- Right-Right: single left rotation
        rw [get_balance_node] at hb
        rw [node_data_node] at hv
        have hfix : insert_fixup v d l (.node dr c e hr)
            = .node dr (.node d l c (1 + max (get_height l) (get_height c)))
                e (1 + max (1 + max (get_height l) (get_height c)) (get_height e)) := by
          simp only [insert_fixup]
          rw [if_neg (by rw [get_height_node]; rintro ⟨hc, -⟩; omega),
              if_pos ⟨by rw [get_height_node]; omega, by rw [node_data_node]; exact hv⟩]
          rfl
        rw [hfix]
        refine ⟨?_, ?_, ?_, ?_⟩
        · exact Avl.node
            (Avl.node hal hac rfl (by omega) (by omega)) hae
            (by rw [get_height_node]) (by rw [get_height_node]; omega)
            (by rw [get_height_node]; omega)
        · intro c1' c2'; rw [get_height_node] at c1' c2'; omega
        · intro hx; rw [get_height_node] at hx; omega
        · intro _; rw [get_height_node, get_height_node]; omega
    · -- already within tolerance: only the height is refreshed
      have hfix : insert_fixup v d l r = .node d l r (1 + max (get_height l) (get_height r)) := by
        simp only [insert_fixup]
        rw [if_neg (by rintro ⟨hc, -⟩; omega), if_neg (by rintro ⟨hc, -⟩; omega),
            if_neg (by rintro ⟨hc, -⟩; omega), if_neg (by rintro ⟨hc, -⟩; omega)]
      rw [hfix]
      exact ⟨Avl.node hal har rfl (by omega) (by omega), fun _ _ => rfl,
        fun hx => absurd hx h2, fun hx => absurd hx hm2⟩

/-! ### Correctness of the delete-side rebalancing step

`remove_fixup d l r` runs after a removal shrank one child by at most one
level; its rotation cases inspect the balance factor of the heavier child,
and unlike insertion a rotation here may or may not shrink the subtree. -/

theorem remove_fixup_spec (d : Int) (l r : AVLNode)
    (hal : Avl l) (har : Avl r)
    (hlo : -2 ≤ get_height l - get_height r)
    (hhi : get_height l - get_height r ≤ 2) :
    Avl (remove_fixup d l r)
    ∧ (-1 ≤ get_height l - get_height r → get_height l - get_height r ≤ 1 →
        remove_fixup d l r = .node d l r (1 + max (get_height l) (get_height r)))
    ∧ (get_height l - get_height r = 2 →
        get_height (remove_fixup d l r) = get_height l
        ∨ get_height (remove_fixup d l r) = get_height l + 1)
    ∧ (get_height l - get_height r = -2 →
        get_height (remove_fixup d l r) = get_height r
        ∨ get_height (remove_fixup d l r) = get_height r + 1) := by
  have hl0 := avl_height_nonneg hal
  have hr0 := avl_height_nonneg har
  by_cases h2 : get_height l - get_height r = 2
  · rcases hal with _ | @⟨dl, a, b, hl, haa, hab, hhl, hbal1, hbal2⟩
    · rw [get_height_leaf] at h2; omega
    have ha0 := avl_height_nonneg haa
    have hb0 := avl_height_nonneg hab
    rw [get_height_node] at h2 hl0
    by_cases hb : get_balance (.node dl a b hl) ≥ 0
    · -- heavier-left child not right-leaning: single right rotation
      rw [get_balance_node] at hb
      have hfix : remove_fixup d (.node dl a b hl) r
          = .node dl a (.node d b r (1 + max (get_height b) (get_height r)))
              (1 + max (get_height a) (1 + max (get_height b) (get_height r))) := by
        simp only [remove_fixup]
        rw [if_pos ⟨by rw [get_height_node]; omega, by rw [get_balance_node]; omega⟩]
        rfl
      rw [hfix]
      refine ⟨?_, ?_, ?_, ?_⟩
      · exact Avl.node haa (Avl.node hab har rfl (by omega) (by omega))
          (by rw [get_height_node]) (by rw [get_height_node]; omega)
          (by rw [get_height_node]; omega)
      · intro c1 c2; rw [get_height_node] at c1 c2; omega
      · intro _; rw [get_height_node, get_height_node]; omega
      · intro hx; rw [get_height_node] at hx; omega
    · -- heavier-left child right-leaning: double rotation
      rw [get_balance_node] at hb
      rcases hab with _ | @⟨db, b1, b2, hbh, hba, hbb, hhb, hbb1, hbb2⟩
      · rw [get_height_leaf] at hb; omega
      have hb10 := avl_height_nonneg hba
      have hb20 := avl_height_nonneg hbb
      rw [get_height_node] at hb hb0 hhl hbal1 hbal2
      have hfix : remove_fixup d (.node dl a (.node db b1 b2 hbh) hl) r
          = .node db (.node dl a b1 (1 + max (get_height a) (get_height b1)))
              (.node d b2 r (1 + max (get_height b2) (get_height r)))
              (1 + max (1 + max (get_height a) (get_height b1))
                (1 + max (get_height b2) (get_height r))) := by
        simp only [remove_fixup]
        rw [if_neg (by simp only [get_balance_node, get_height_node]; omega),
            if_pos ⟨by rw [get_height_node]; omega,
              by simp only [get_balance_node, get_height_node]; omega⟩]
        rfl
      rw [hfix]
      refine ⟨?_, ?_, ?_, ?_⟩
      · exact Avl.node
          (Avl.node haa hba rfl (by omega) (by omega))
          (Avl.node hbb har rfl (by omega) (by omega))
          (by rw [get_height_node, get_height_node])
          (by rw [get_height_node, get_height_node]; omega)
          (by rw [get_height_node, get_height_node]; omega)
      · intro c1 c2; rw [get_height_node] at c1 c2; omega
      · intro _; rw [get_height_node, get_height_node]; omega
      · intro hx; rw [get_height_node] at hx; omega
  · by_cases hm2 : get_height l - get_height r = -2
    · rcases har with _ | @⟨dr, c, e, hr, hac, hae, hhr, hbr1, hbr2⟩
      · rw [get_height_leaf] at hm2; omega
      have hc0 := avl_height_nonneg hac
      have he0 := avl_height_nonneg hae
      rw [get_height_node] at hm2 hr0
      by_cases hb : get_balance (.node dr c e hr) ≤ 0
      · -- heavier-right child not left-leaning: single left rotation
        rw [get_balance_node] at hb
        have hfix : remove_fixup d l (.node dr c e hr)
            = .node dr (.node d l c (1 + max (get_height l) (get_height c)))
                e (1 + max (1 + max (get_height l) (get_height c)) (get_height e)) := by
          simp only [remove_fixup]
          rw [if_neg (by rw [get_height_node]; rintro ⟨hc', -⟩; omega),
              if_neg (by rw [get_height_node]; rintro ⟨hc', -⟩; omega),
              if_pos ⟨by rw [get_height_node]; omega, by rw [get_balance_node]; omega⟩]
          rfl
        rw [hfix]
        refine ⟨?_, ?_, ?_, ?_⟩
        · exact Avl.node
            (Avl.node hal hac rfl (by omega) (by omega)) hae
            (by rw [get_height_node]) (by rw [get_height_node]; omega)
            (by rw [get_height_node]; omega)
        · intro c1' c2'; rw [get_height_node] at c1' c2'; omega
        · intro hx; rw [get_height_node] at hx; omega
        · intro _; rw [get_height_node, get_height_node]; omega
      · -- heavier-right child left-leaning: double rotation
        rw [get_balance_node] at hb
        rcases hac with _ | @⟨dc, c1, c2, hch, hca, hcb, hhc, hcc1, hcc2⟩
        · rw [get_height_leaf] at hb; omega
        have hc10 := avl_height_nonneg hca
        have hc20 := avl_height_nonneg hcb
        rw [get_height_node] at hb hc0 hhr hbr1 hbr2
        have hfix : remove_fixup d l (.node dr (.node dc c1 c2 hch) e hr)
            = .node dc (.node d l c1 (1 + max (get_height l) (get_height c1)))
                (.node dr c2 e (1 + max (get_height c2) (get_height e)))
                (1 + max (1 + max (get_height l) (get_height c1))
                  (1 + max (get_height c2) (get_height e))) := by
          simp only [remove_fixup]
          rw [if_neg (by rw [get_height_node]; rintro ⟨hc', -⟩; omega),
              if_neg (by rw [get_height_node]; rintro ⟨hc', -⟩; omega),
              if_neg (by simp only [get_balance_node, get_height_node]; omega),
              if_pos ⟨by rw [get_height_node]; omega,
                by simp only [get_balance_node, get_height_node]; omega⟩]
          rfl
        rw [hfix]
        refine ⟨?_, ?_, ?_, ?_⟩
        · exact Avl.node
            (Avl.node hal hca rfl (by omega) (by omega))
            (Avl.node hcb hae rfl (by omega) (by omega))
            (by rw [get_height_node, get_height_node])
            (by rw [get_height_node, get_height_node]; omega)
            (by rw [get_height_node, get_height_node]; omega)
        · intro c1' c2'; rw [get_height_node] at c1' c2'; omega
        · intro hx; rw [get_height_node] at hx; omega
        · intro _; rw [get_height_node, get_height_node]; omega
    · -- already within tolerance: only the height is refreshed
      have hfix : remove_fixup d l r = .node d l r (1 + max (get_height l) (get_height r)) := by
        simp only [remove_fixup]
        rw [if_neg (by rintro ⟨hc, -⟩; omega), if_neg (by rintro ⟨hc, -⟩; omega),
            if_neg (by rintro ⟨hc, -⟩; omega), if_neg (by rintro ⟨hc, -⟩; omega)]
      rw [hfix]
      exact ⟨Avl.node hal har rfl (by omega) (by omega), fun _ _ => rfl,
        fun hx => absurd hx h2, fun hx => absurd hx hm2⟩

/-! ### Insertion preserves the AVL shape and performs a sorted insert

The height clause is the classical strengthening: the subtree height grows
by at most one, and when it does grow the new subtree root leans towards
the inserted value (unless the subtree was empty), which is exactly what
the value-comparison rotation cases of the parent level rely on. -/

theorem insert_spec (v : Int) (t : AVLNode) (ha : Avl t)
    (hs : List.Pairwise (· < ·) (inorder_recursive t)) :
    Avl (insert_recursive t v)
    ∧ inorder_recursive (insert_recursive t v) = oinsert v (inorder_recursive t)
    ∧ (get_height (insert_recursive t v) = get_height t
       ∨ (get_height (insert_recursive t v) = get_height t + 1
          ∧ (t = .leaf
             ∨ (get_balance (insert_recursive t v) = 1
                ∧ v < node_data (insert_recursive t v))
             ∨ (get_balance (insert_recursive t v) = -1
                ∧ node_data (insert_recursive t v) < v)))) := by
  induction t with
  | leaf =>
    refine ⟨Avl.node Avl.leaf Avl.leaf (by rw [get_height_leaf]; norm_num) (by simp) (by simp),
      by simp [insert_recursive, inorder_recursive, oinsert], ?_⟩
    exact Or.inr ⟨by simp only [insert_recursive, get_height_node, get_height_leaf]; omega,
      Or.inl rfl⟩
  | node d l r h ihl ihr =>
    cases ha with
    | node hal har hh hb1 hb2 =>
    simp only [inorder_recursive] at hs
    obtain ⟨hsl, hsr, hLd, hdR⟩ := pairwise_middle hs
    have hl0 := avl_height_nonneg hal
    have hr0 := avl_height_nonneg har
    by_cases hvd : v < d
    · obtain ⟨ih1, ih2, ih3⟩ := ihl hal hsl
      have hunf : insert_recursive (.node d l r h) v
          = insert_fixup v d (insert_recursive l v) r := by
        simp only [insert_recursive]
        rw [if_pos hvd]
      have hei : get_height (insert_recursive l v) = get_height l
          ∨ get_height (insert_recursive l v) = get_height l + 1 := by
        rcases ih3 with h' | ⟨h', -⟩
        · exact Or.inl h'
        · exact Or.inr h'
      have hgl' : get_height (insert_recursive l v) - get_height r = 2 →
          (get_balance (insert_recursive l v) = 1 ∧ v < node_data (insert_recursive l v))
          ∨ (get_balance (insert_recursive l v) = -1
             ∧ node_data (insert_recursive l v) < v) := by
        intro he
        rcases ih3 with h' | ⟨h', hshape⟩
        · omega
        · rcases hshape with hleaf | hs1 | hs2
          · subst hleaf
            rw [get_height_leaf] at h'
            omega
          · exact Or.inl hs1
          · exact Or.inr hs2
      obtain ⟨f1, f2, f3, f4⟩ := insert_fixup_spec v d (insert_recursive l v) r ih1 har
        (by omega) (by omega) hgl' (by omega)
      rw [hunf]
      refine ⟨f1, ?_, ?_⟩
      · rw [inorder_insert_fixup, ih2, inorder_recursive, oinsert_append_lt hvd]
      · rw [get_height_node]
        by_cases hc : get_height (insert_recursive l v) - get_height r ≤ 1
        · rw [f2 (by omega) hc]
          simp only [get_height_node, get_balance_node, node_data_node]
          by_cases heq : 1 + max (get_height (insert_recursive l v)) (get_height r) = h
          · exact Or.inl heq
          · exact Or.inr ⟨by omega, Or.inr (Or.inl ⟨by omega, hvd⟩)⟩
        · exact Or.inl (by rw [f3 (by omega)]; omega)
    · by_cases hdv : d < v
      · obtain ⟨ih1, ih2, ih3⟩ := ihr har hsr
        have hunf : insert_recursive (.node d l r h) v
            = insert_fixup v d l (insert_recursive r v) := by
          simp only [insert_recursive]
          rw [if_neg hvd, if_pos hdv]
        have hei : get_height (insert_recursive r v) = get_height r
            ∨ get_height (insert_recursive r v) = get_height r + 1 := by
          rcases ih3 with h' | ⟨h', -⟩
          · exact Or.inl h'
          · exact Or.inr h'
        have hgr' : get_height l - get_height (insert_recursive r v) = -2 →
            (get_balance (insert_recursive r v) = 1 ∧ v < node_data (insert_recursive r v))
            ∨ (get_balance (insert_recursive r v) = -1
               ∧ node_data (insert_recursive r v) < v) := by
          intro he
          rcases ih3 with h' | ⟨h', hshape⟩
          · omega
          · rcases hshape with hleaf | hs1 | hs2
            · subst hleaf
              rw [get_height_leaf] at h'
              omega
            · exact Or.inl hs1
            · exact Or.inr hs2
        obtain ⟨f1, f2, f3, f4⟩ := insert_fixup_spec v d l (insert_recursive r v) hal ih1
          (by omega) (by omega) (by omega) hgr'
        rw [hunf]
        refine ⟨f1, ?_, ?_⟩
        · rw [inorder_insert_fixup, ih2, inorder_recursive,
            oinsert_append_gt hdv _ _ (fun x hx => lt_trans (hLd x hx) hdv)]
        · rw [get_height_node]
          by_cases hc : -1 ≤ get_height l - get_height (insert_recursive r v)
          · rw [f2 hc (by omega)]
            simp only [get_height_node, get_balance_node, node_data_node]
            by_cases heq : 1 + max (get_height l) (get_height (insert_recursive r v)) = h
            · exact Or.inl heq
            · exact Or.inr ⟨by omega, Or.inr (Or.inr ⟨by omega, hdv⟩)⟩
          · exact Or.inl (by rw [f4 (by omega)]; omega)
      · have hvdeq : v = d := by omega
        have hunf : insert_recursive (.node d l r h) v = .node d l r h := by
          simp only [insert_recursive]
          rw [if_neg hvd, if_neg hdv]
        rw [hunf]
        refine ⟨Avl.node hal har hh hb1 hb2, ?_, Or.inl rfl⟩
        rw [inorder_recursive]
        subst hvdeq
        rw [oinsert_mem_eq _ _ hLd]

/-! ### Removal preserves the AVL shape and performs a sorted erase -/

theorem find_min_head (r : AVLNode) (hne : r ≠ .leaf) :
    ∃ tl, inorder_recursive r = node_data (find_min r) :: tl := by
  induction r with
  | leaf => exact absurd rfl hne
  | node d l rr h ihl ihr =>
    cases l with
    | leaf =>
      exact ⟨inorder_recursive rr, by simp [find_min, inorder_recursive, node_data_node]⟩
    | node dl ll rl hl =>
      obtain ⟨tl, htl⟩ := ihl (by simp)
      refine ⟨tl ++ d :: inorder_recursive rr, ?_⟩
      rw [show find_min (AVLNode.node d (AVLNode.node dl ll rl hl) rr h)
            = find_min (AVLNode.node dl ll rl hl) from rfl,
          show inorder_recursive (AVLNode.node d (AVLNode.node dl ll rl hl) rr h)
            = inorder_recursive (AVLNode.node dl ll rl hl) ++ d :: inorder_recursive rr from rfl,
          htl]
      simp

theorem remove_spec (t : AVLNode) (ha : Avl t)
    (hs : List.Pairwise (· < ·) (inorder_recursive t)) :
    ∀ v : Int,
      Avl (remove_recursive t v)
      ∧ inorder_recursive (remove_recursive t v) = oerase v (inorder_recursive t)
      ∧ (get_height (remove_recursive t v) = get_height t
         ∨ get_height (remove_recursive t v) + 1 = get_height t) := by
  induction t with
  | leaf =>
    intro v
    exact ⟨Avl.leaf, by simp [remove_recursive, inorder_recursive, oerase], Or.inl rfl⟩
  | node d l r h ihl ihr =>
    intro v
    cases ha with
    | node hal har hh hb1 hb2 =>
    simp only [inorder_recursive] at hs
    obtain ⟨hsl, hsr, hLd, hdR⟩ := pairwise_middle hs
    have hl0 := avl_height_nonneg hal
    have hr0 := avl_height_nonneg har
    by_cases hvd : v < d
    · obtain ⟨ih1, ih2, ih3⟩ := ihl hal hsl v
      have hunf : remove_recursive (.node d l r h) v
          = remove_fixup d (remove_recursive l v) r := by
        simp only [remove_recursive]
        rw [if_pos hvd]
      obtain ⟨f1, f2, f3, f4⟩ := remove_fixup_spec d (remove_recursive l v) r ih1 har
        (by omega) (by omega)
      rw [hunf]
      refine ⟨f1, ?_, ?_⟩
      · rw [inorder_remove_fixup, ih2, inorder_recursive, oerase_append_lt hvd]
      · rw [get_height_node]
        by_cases hc : -1 ≤ get_height (remove_recursive l v) - get_height r
        · rw [f2 hc (by omega), get_height_node]
          omega
        · have := f4 (by omega)
          omega
    · by_cases hdv : d < v
      · obtain ⟨ih1, ih2, ih3⟩ := ihr har hsr v
        have hunf : remove_recursive (.node d l r h) v
            = remove_fixup d l (remove_recursive r v) := by
          simp only [remove_recursive]
          rw [if_neg hvd, if_pos hdv]
        obtain ⟨f1, f2, f3, f4⟩ := remove_fixup_spec d l (remove_recursive r v) hal ih1
          (by omega) (by omega)
        rw [hunf]
        refine ⟨f1, ?_, ?_⟩
        · rw [inorder_remove_fixup, ih2, inorder_recursive,
            oerase_append_gt hdv _ _ (fun x hx => lt_trans (hLd x hx) hdv)]
        · rw [get_height_node]
          by_cases hc : get_height l - get_height (remove_recursive r v) ≤ 1
          · rw [f2 (by omega) hc, get_height_node]
            omega
          · have := f3 (by omega)
            omega
      · have hveq : v = d := by omega
        subst hveq
        cases l with
        | leaf =>
          have hunf : remove_recursive (.node v .leaf r h) v = r := by
            simp only [remove_recursive]
            rw [if_neg hvd, if_neg hdv]
            simp
          rw [hunf]
          rw [get_height_leaf] at hh hb1 hb2
          refine ⟨har, ?_, by rw [get_height_node]; omega⟩
          rw [show inorder_recursive (AVLNode.node v .leaf r h)
                = [] ++ v :: inorder_recursive r from rfl,
              oerase_mem_eq [] _ (by simp), List.nil_append]
        | node dl ll rl hl =>
          cases r with
          | leaf =>
            have hunf : remove_recursive (.node v (.node dl ll rl hl) .leaf h) v
                = .node dl ll rl hl := by
              simp only [remove_recursive]
              rw [if_neg hvd, if_neg hdv]
              simp
            rw [hunf]
            rw [get_height_leaf] at hh hb1 hb2
            refine ⟨hal, ?_,
              by simp only [get_height_node] at hh hb1 hb2 hl0 ⊢; omega⟩
            rw [show inorder_recursive (AVLNode.node v (.node dl ll rl hl) .leaf h)
                  = inorder_recursive (.node dl ll rl hl) ++ v :: [] from rfl,
                oerase_mem_eq _ [] hLd, List.append_nil]
          | node dr lr rr hr2 =>
            obtain ⟨tl, htl⟩ := find_min_head (.node dr lr rr hr2) (by simp)
            have hunf : remove_recursive
                  (.node v (.node dl ll rl hl) (.node dr lr rr hr2) h) v
                = remove_fixup (node_data (find_min (.node dr lr rr hr2)))
                    (.node dl ll rl hl)
                    (remove_recursive (.node dr lr rr hr2)
                      (node_data (find_min (.node dr lr rr hr2)))) := by
              simp only [remove_recursive]
              rw [if_neg hvd, if_neg hdv]
              simp
            obtain ⟨ih1, ih2, ih3⟩ := ihr har hsr (node_data (find_min (.node dr lr rr hr2)))
            rw [htl] at ih2
            rw [show oerase (node_data (find_min (AVLNode.node dr lr rr hr2)))
                  (node_data (find_min (AVLNode.node dr lr rr hr2)) :: tl) = tl from by
                simp [oerase]] at ih2
            obtain ⟨f1, f2, f3, f4⟩ := remove_fixup_spec
              (node_data (find_min (.node dr lr rr hr2))) (.node dl ll rl hl)
              (remove_recursive (.node dr lr rr hr2)
                (node_data (find_min (.node dr lr rr hr2))))
              hal ih1 (by omega) (by omega)
            rw [hunf]
            refine ⟨f1, ?_, ?_⟩
            · rw [inorder_remove_fixup, ih2,
                show inorder_recursive (AVLNode.node v (.node dl ll rl hl)
                      (.node dr lr rr hr2) h)
                  = inorder_recursive (.node dl ll rl hl)
                      ++ v :: inorder_recursive (.node dr lr rr hr2) from rfl,
                htl, oerase_mem_eq _ _ hLd]
            · rw [get_height_node]
              by_cases hc : get_height (AVLNode.node dl ll rl hl)
                  - get_height (remove_recursive (.node dr lr rr hr2)
                      (node_data (find_min (.node dr lr rr hr2)))) ≤ 1
              · rw [f2 (by omega) hc, get_height_node]
                omega
              · have := f3 (by omega)
                omega

/-! ### The invariant carried by every reachable tree state -/

theorem reachable_inv {s : AVLTree} (h : Reachable s) :
    Avl s.root ∧ List.Pairwise (· < ·) (inorder_recursive s.root) := by
  induction h with
  | empty => exact ⟨Avl.leaf, List.Pairwise.nil⟩
  | insert s v hs ih =>
    obtain ⟨ha, hp⟩ := ih
    obtain ⟨h1, h2, -⟩ := insert_spec v s.root ha hp
    refine ⟨h1, ?_⟩
    rw [show (s.insert v).root = insert_recursive s.root v from rfl, h2]
    exact oinsert_pairwise hp
  | remove s v hs ih =>
    obtain ⟨ha, hp⟩ := ih
    by_cases hc : s.contains v
    · obtain ⟨h1, h2, -⟩ := remove_spec s.root ha hp v
      rw [show s.remove v = ⟨remove_recursive s.root v, s.size_ - 1⟩ from by
        rw [AVLTree.remove, if_pos hc]]
      exact ⟨h1, by rw [h2]; exact oerase_pairwise hp⟩
    · rw [AVLTree.remove, if_neg hc]
      exact ⟨ha, hp⟩

/-! ### Search, membership and depth -/

theorem find_node_ne_leaf_iff {t : AVLNode}
    (hs : List.Pairwise (· < ·) (inorder_recursive t)) (v : Int) :
    find_node t v ≠ .leaf ↔ v ∈ inorder_recursive t := by
  induction t with
  | leaf => simp [find_node, inorder_recursive]
  | node d l r h ihl ihr =>
    simp only [inorder_recursive] at hs ⊢
    obtain ⟨hsl, hsr, hLd, hdR⟩ := pairwise_middle hs
    simp only [find_node]
    by_cases h1 : d = v
    · rw [if_pos h1]
      subst h1
      simp
    · rw [if_neg h1]
      by_cases h2 : v < d
      · rw [if_pos h2, ihl hsl]
        constructor
        · intro hm
          exact List.mem_append.2 (Or.inl hm)
        · intro hm
          rcases List.mem_append.1 hm with hm | hm
          · exact hm
          · rcases List.mem_cons.1 hm with he | hm
            · omega
            · exact absurd (hdR v hm) (by omega)
      · rw [if_neg h2, ihr hsr]
        constructor
        · intro hm
          exact List.mem_append.2 (Or.inr (List.mem_cons.2 (Or.inr hm)))
        · intro hm
          rcases List.mem_append.1 hm with hm | hm
          · exact absurd (hLd v hm) (by omega)
          · rcases List.mem_cons.1 hm with he | hm
            · omega
            · exact hm

theorem edge_depth_not_mem {t : AVLNode} {k : Int}
    (h : k ∉ inorder_recursive t) : edge_depth t k = none := by
  induction t with
  | leaf => rfl
  | node d l r hh ihl ihr =>
    simp only [inorder_recursive, List.mem_append, List.mem_cons] at h
    push_neg at h
    obtain ⟨h1, h2, h3⟩ := h
    simp only [edge_depth]
    rw [if_neg (fun he => h2 he.symm), ihl h1, ihr h3]

theorem edge_depth_mem {t : AVLNode} {k : Int}
    (hs : List.Pairwise (· < ·) (inorder_recursive t))
    (hm : k ∈ inorder_recursive t) :
    edge_depth t k = some (depth_loop k t) := by
  induction t with
  | leaf => simp [inorder_recursive] at hm
  | node d l r h ihl ihr =>
    simp only [inorder_recursive] at hs hm
    obtain ⟨hsl, hsr, hLd, hdR⟩ := pairwise_middle hs
    simp only [edge_depth, depth_loop]
    by_cases h1 : d = k
    · rw [if_pos h1, if_pos h1]
    · rw [if_neg h1, if_neg h1]
      rcases List.mem_append.1 hm with hmL | hmdR
      · have hk : k < d := hLd k hmL
        rw [if_pos hk, ihl hsl hmL]
      · rcases List.mem_cons.1 hmdR with he | hmR
        · exact absurd he.symm h1
        · have hk : d < k := hdR k hmR
          rw [if_neg (by omega),
            edge_depth_not_mem (fun hmm => absurd (hLd k hmm) (by omega)),
            ihr hsr hmR]

/-! ### Rebuilding by repeated insertion of a sorted list (`balance`) -/

theorem foldl_insert_sorted (L : List Int) (s : AVLTree) (ha : Avl s.root)
    (hs : List.Pairwise (· < ·) (inorder_recursive s.root ++ L)) :
    Avl ((L.foldl AVLTree.insert s).root)
    ∧ inorder_recursive ((L.foldl AVLTree.insert s).root)
        = inorder_recursive s.root ++ L
    ∧ (L.foldl AVLTree.insert s).size_ = s.size_ + L.length := by
  induction L generalizing s with
  | nil => simpa using ha
  | cons x xs ih =>
    have hx : ∀ y ∈ inorder_recursive s.root, y < x := by
      rw [List.pairwise_append] at hs
      exact fun y hy => hs.2.2 y hy x (by simp)
    have hsp : List.Pairwise (· < ·) (inorder_recursive s.root) :=
      (List.pairwise_append.1 hs).1
    obtain ⟨h1, h2, -⟩ := insert_spec x s.root ha hsp
    have hio : inorder_recursive ((s.insert x).root)
        = inorder_recursive s.root ++ [x] := by
      rw [show (s.insert x).root = insert_recursive s.root x from rfl, h2,
        oinsert_gt_all _ hx]
    have hs' : List.Pairwise (· < ·) (inorder_recursive ((s.insert x).root) ++ xs) := by
      rw [hio, List.append_assoc]
      simpa using hs
    obtain ⟨g1, g2, g3⟩ := ih (s.insert x) h1 hs'
    refine ⟨g1, ?_, ?_⟩
    · rw [List.foldl_cons, g2, hio]
      simp
    · rw [List.foldl_cons, g3, show (s.insert x).size_ = s.size_ + 1 from rfl,
        List.length_cons]
      omega

/-! ### Leftmost / rightmost descent in the plain binary search tree -/

theorem bst_find_min_spec (r : BSTNode) (hne : r ≠ .leaf) :
    ∃ d l2 r2 tl, bst_find_min r = .node d l2 r2 ∧ bst_inorder r = d :: tl := by
  induction r with
  | leaf => exact absurd rfl hne
  | node d l rr ihl ihr =>
    cases l with
    | leaf =>
      exact ⟨d, .leaf, rr, bst_inorder rr, rfl, by simp [bst_inorder]⟩
    | node dl ll rl =>
      obtain ⟨m, l2, r2, tl, hfm, htl⟩ := ihl (by simp)
      refine ⟨m, l2, r2, tl ++ d :: bst_inorder rr, ?_, ?_⟩
      · rw [show bst_find_min (BSTNode.node d (BSTNode.node dl ll rl) rr)
              = bst_find_min (BSTNode.node dl ll rl) from rfl, hfm]
      · rw [show bst_inorder (BSTNode.node d (BSTNode.node dl ll rl) rr)
              = bst_inorder (BSTNode.node dl ll rl) ++ d :: bst_inorder rr from rfl, htl]
        simp

theorem bst_find_max_spec (r : BSTNode) (hne : r ≠ .leaf) :
    ∃ d l2 r2 hd, bst_find_max r = .node d l2 r2 ∧ bst_inorder r = hd ++ [d] := by
  induction r with
  | leaf => exact absurd rfl hne
  | node d l rr ihl ihr =>
    cases rr with
    | leaf =>
      exact ⟨d, l, .leaf, bst_inorder l, rfl, by simp [bst_inorder]⟩
    | node dr lr rr2 =>
      obtain ⟨m, l2, r2, hd, hfm, hhd⟩ := ihr (by simp)
      refine ⟨m, l2, r2, bst_inorder l ++ d :: hd, ?_, ?_⟩
      · rw [show bst_find_max (BSTNode.node d l (BSTNode.node dr lr rr2))
              = bst_find_max (BSTNode.node dr lr rr2) from rfl, hfm]
      · rw [show bst_inorder (BSTNode.node d l (BSTNode.node dr lr rr2))
              = bst_inorder l ++ d :: bst_inorder (BSTNode.node dr lr rr2) from rfl, hhd]
        simp

/-! ### The claims -/

/-- C1: the claim states that `size()` equals the number of distinct keys
inserted minus the number of present keys removed, so that inserting an
already-present key leaves `size()` unchanged.  The code violates this:
`AVLTree::insert` increments `size_` unconditionally while
`insert_recursive` silently drops the duplicate, so after `insert(1);
insert(1)` the counter reads 2 although the tree stores a single node. -/
theorem C1_duplicate_insert_desyncs_size :
    ((AVLTree.emptyTree.insert 1).insert 1).size = 2
    ∧ AVLTree.inorder ((AVLTree.emptyTree.insert 1).insert 1) = [1]
    ∧ node_count ((AVLTree.emptyTree.insert 1).insert 1).root = 1 :=
  ⟨rfl, rfl, rfl⟩

/-- C2: the claim states that inserting the same key twice yields a tree
identical in in-order sequence and in `size()` to inserting it once.  The
stored tree is indeed identical (the duplicate is silently skipped), but
`size()` differs: 2 after the double insert against 1 after the single
insert, because `insert` increments the counter unconditionally. -/
theorem C2_insert_not_idempotent_in_size :
    ((AVLTree.emptyTree.insert 1).insert 1).root = (AVLTree.emptyTree.insert 1).root
    ∧ AVLTree.inorder ((AVLTree.emptyTree.insert 1).insert 1)
        = AVLTree.inorder (AVLTree.emptyTree.insert 1)
    ∧ ((AVLTree.emptyTree.insert 1).insert 1).size = 2
    ∧ (AVLTree.emptyTree.insert 1).size = 1 :=
  ⟨rfl, rfl, rfl, rfl⟩

/-- C3 (counterexample): a tree with no nodes on which `min()` does not
raise the empty-structure error is reachable: `insert(1); insert(1);
remove(1)` leaves `size_ = 1` with a null root, the `empty()` guard (which
tests the counter, not the root) passes, and `find_min(nullptr)->data`
dereferences a null pointer. -/
theorem C3_min_on_nodeless_tree_not_empty_error :
    (((BinarySearchTree.emptyTree.insert 1).insert 1).remove 1).root = .leaf
    ∧ BinarySearchTree.min (((BinarySearchTree.emptyTree.insert 1).insert 1).remove 1)
        ≠ .emptyError
    ∧ BinarySearchTree.min (((BinarySearchTree.emptyTree.insert 1).insert 1).remove 1)
        = .nullDeref := by
  refine ⟨rfl, ?_, rfl⟩
  decide

/-- C3 (amended): `min()` and `max()` raise the distinguished
empty-structure error exactly when the `size_` counter is zero (not when
the tree has no nodes), and they never return a sentinel value; on a tree
whose root exists and whose counter is nonzero, `min()` returns the
leftmost key (the first in-order key) and `max()` the rightmost (the last
in-order key). -/
theorem C3_min_max_guard_and_leftmost (s : BinarySearchTree) :
    (s.size_ = 0 →
      BinarySearchTree.min s = .emptyError ∧ BinarySearchTree.max s = .emptyError)
    ∧ (s.root ≠ .leaf → s.size_ ≠ 0 →
      BinarySearchTree.min s = .value ((bst_inorder s.root).headI)
      ∧ BinarySearchTree.max s = .value ((bst_inorder s.root).getLastD 0)) := by
  constructor
  · intro h0
    rw [BinarySearchTree.min, BinarySearchTree.max, if_pos h0, if_pos h0]
    exact ⟨rfl, rfl⟩
  · intro hne h0
    obtain ⟨m, l2, r2, tl, hfm, htl⟩ := bst_find_min_spec s.root hne
    obtain ⟨m', l2', r2', hd, hfm', hhd⟩ := bst_find_max_spec s.root hne
    constructor
    · rw [BinarySearchTree.min, if_neg h0, hfm, htl]
      rfl
    · rw [BinarySearchTree.max, if_neg h0, hfm', hhd]
      simp

/-- C3 (witness for the amended statement): on a default-constructed tree
`min()` raises the empty error; after `insert(5)` it returns 5. -/
theorem C3_witness :
    BinarySearchTree.min BinarySearchTree.emptyTree = .emptyError
    ∧ BinarySearchTree.min (BinarySearchTree.emptyTree.insert 5)
        = .value 5 := by
  constructor
  · exact ((C3_min_max_guard_and_leftmost BinarySearchTree.emptyTree).1 rfl).1
  · exact ((C3_min_max_guard_and_leftmost (BinarySearchTree.emptyTree.insert 5)).2
      (by decide) (by decide)).1

/-- C4: after every sequence of `insert` and `remove` calls starting from
the empty tree, every node of the resulting tree has balance factor
(real height of left subtree minus real height of right subtree) in
`{-1, 0, 1}`. -/
theorem C4_balance_factor_invariant (s : AVLTree) (h : Reachable s) :
    balanced_all s.root = true := by
  obtain ⟨ha, -⟩ := reachable_inv h
  exact avl_balanced_all ha

/-- C4 (witness): the invariant, evaluated on the tree built by
`insert 1; insert 2; insert 3; remove 2`. -/
theorem C4_witness :
    balanced_all ((((AVLTree.emptyTree.insert 1).insert 2).insert 3).remove 2).root
      = true :=
  C4_balance_factor_invariant _
    (Reachable.remove _ 2 (Reachable.insert _ 3 (Reachable.insert _ 2
      (Reachable.insert _ 1 Reachable.empty))))

/-- C5: for every reachable tree state, `inorder()` lists the contained
keys in strictly ascending order (each element less than the next). -/
theorem C5_inorder_strictly_ascending (s : AVLTree) (h : Reachable s) :
    List.Chain' (· < ·) (AVLTree.inorder s) := by
  obtain ⟨-, hp⟩ := reachable_inv h
  exact List.chain'_iff_pairwise.2 hp

/-- C5 (witness): the in-order sequence of the tree built by
`insert 3; insert 1; insert 2; remove 3` is strictly ascending. -/
theorem C5_witness :
    List.Chain' (· < ·)
      (AVLTree.inorder ((((AVLTree.emptyTree.insert 3).insert 1).insert 2).remove 3)) :=
  C5_inorder_strictly_ascending _
    (Reachable.remove _ 3 (Reachable.insert _ 2 (Reachable.insert _ 1
      (Reachable.insert _ 3 Reachable.empty))))

/-- C6: on every reachable tree state, removing an absent key is a no-op
(the whole state, hence structure, in-order sequence and `size()`, is
unchanged), and removing a present key leaves a tree that no longer
contains it and in which BST order, the cached heights and the
balance-factor invariant hold tree-wide. -/
theorem C6_remove_contract (s : AVLTree) (k : Int) (h : Reachable s) :
    (s.contains k = false → s.remove k = s)
    ∧ (s.contains k = true →
        (s.remove k).contains k = false
        ∧ List.Chain' (· < ·) (AVLTree.inorder (s.remove k))
        ∧ heights_ok (s.remove k).root = true
        ∧ balanced_all (s.remove k).root = true) := by
  obtain ⟨ha, hp⟩ := reachable_inv h
  constructor
  · intro hc
    rw [AVLTree.remove, if_neg (by simp [hc])]
  · intro hc
    have hrem : s.remove k = ⟨remove_recursive s.root k, s.size_ - 1⟩ := by
      rw [AVLTree.remove, if_pos hc]
    obtain ⟨h1, h2, -⟩ := remove_spec s.root ha hp k
    have hps : List.Pairwise (· < ·) (inorder_recursive (remove_recursive s.root k)) := by
      rw [h2]
      exact oerase_pairwise hp
    refine ⟨?_, ?_, ?_, ?_⟩
    · rw [hrem]
      have hnm : ¬ (find_node (remove_recursive s.root k) k ≠ .leaf) := by
        rw [find_node_ne_leaf_iff hps k, h2]
        exact not_mem_oerase hp
      simp only [AVLTree.contains]
      simp [hnm]
    · rw [hrem]
      exact List.chain'_iff_pairwise.2 hps
    · rw [hrem]
      exact avl_heights_ok h1
    · rw [hrem]
      exact avl_balanced_all h1

/-- C6 (witness): removing the absent key 3 from the tree holding 1 and 2
is a no-op, and after removing the present key 1 the key is gone. -/
theorem C6_witness :
    ((AVLTree.emptyTree.insert 1).insert 2).remove 3
        = (AVLTree.emptyTree.insert 1).insert 2
    ∧ (((AVLTree.emptyTree.insert 1).insert 2).remove 1).contains 1 = false := by
  constructor
  · exact (C6_remove_contract _ 3
      (Reachable.insert _ 2 (Reachable.insert _ 1 Reachable.empty))).1 (by decide)
  · exact ((C6_remove_contract _ 1
      (Reachable.insert _ 2 (Reachable.insert _ 1 Reachable.empty))).2 (by decide)).1

/-- C7: on every reachable tree state, `height()` (which recomputes the
height recursively) agrees with the cached `height` field of the root
node, and returns 0 on an empty tree. -/
theorem C7_height_matches_cached_root (s : AVLTree) (h : Reachable s) :
    (s.root = .leaf → s.height = 0)
    ∧ ∀ d l r hh, s.root = .node d l r hh → (s.height : Int) = hh := by
  obtain ⟨ha, -⟩ := reachable_inv h
  constructor
  · intro he
    rw [AVLTree.height, he]
    rfl
  · intro d l r hh he
    have hre := avl_height_real ha
    rw [AVLTree.height]
    rw [he] at hre ⊢
    rw [get_height_node] at hre
    omega

/-- C7 (witness): after `insert 5` the recomputed height equals the
root's cached height field, namely 1. -/
theorem C7_witness : ((AVLTree.emptyTree.insert 5).height : Int) = 1 :=
  (C7_height_matches_cached_root _ (Reachable.insert _ 5 Reachable.empty)).2
    5 .leaf .leaf 1 rfl

/-- C8: for every subtree whose root `y` has a left child `x`,
`right_rotate(y)` returns `x`, with `y` as `x`'s right child and `x`'s
original right subtree as `y`'s new left subtree; `y`'s cached height is
recomputed before `x`'s (so `x`'s height is computed from `y`'s new
height), and the rotation preserves the in-order key sequence. -/
theorem C8_right_rotate_shape (yd xd : Int) (xl xr yr : AVLNode) (hx hy : Int) :
    right_rotate (.node yd (.node xd xl xr hx) yr hy)
      = .node xd xl (.node yd xr yr (1 + max (get_height xr) (get_height yr)))
          (1 + max (get_height xl) (1 + max (get_height xr) (get_height yr)))
    ∧ inorder_recursive (right_rotate (.node yd (.node xd xl xr hx) yr hy))
      = inorder_recursive (.node yd (.node xd xl xr hx) yr hy) :=
  ⟨rfl, inorder_right_rotate _⟩

/-- C9: on every reachable tree state, `depth(k)` returns the sentinel
`static_cast<size_t>(-1)` (that is, `2^64 - 1`) for a key not in the tree
rather than signaling a failure, and for a contained key it returns the
number of edges from the root to the node holding that key. -/
theorem C9_depth_sentinel_or_edge_count (s : AVLTree) (k : Int) (h : Reachable s) :
    (k ∉ AVLTree.inorder s → s.depth k = 18446744073709551615)
    ∧ (k ∈ AVLTree.inorder s → edge_depth s.root k = some (s.depth k)) := by
  obtain ⟨-, hp⟩ := reachable_inv h
  constructor
  · intro hm
    have heq : find_node s.root k = .leaf := by
      by_contra hne
      exact hm ((find_node_ne_leaf_iff hp k).1 hne)
    rw [AVLTree.depth, if_pos heq]
  · intro hm
    have hne : ¬ find_node s.root k = .leaf := (find_node_ne_leaf_iff hp k).2 hm
    rw [AVLTree.depth, if_neg hne]
    exact edge_depth_mem hp hm

/-- C9 (witness): in the tree holding 10 and 20, `depth 99` returns the
sentinel and `depth 10` returns the edge distance to the node holding
10. -/
theorem C9_witness :
    ((AVLTree.emptyTree.insert 10).insert 20).depth 99 = 18446744073709551615
    ∧ edge_depth ((AVLTree.emptyTree.insert 10).insert 20).root 10
        = some (((AVLTree.emptyTree.insert 10).insert 20).depth 10) := by
  constructor
  · exact (C9_depth_sentinel_or_edge_count _ 99
      (Reachable.insert _ 20 (Reachable.insert _ 10 Reachable.empty))).1 (by decide)
  · exact (C9_depth_sentinel_or_edge_count _ 10
      (Reachable.insert _ 20 (Reachable.insert _ 10 Reachable.empty))).2 (by decide)

/-- C10: on every reachable tree state, `balance()` (which reads the
in-order sequence, clears the tree, and reinserts every element) leaves
the in-order key sequence unchanged, and afterwards the `size_` counter
equals the number of nodes stored in the tree. -/
theorem C10_balance_inorder_and_size (s : AVLTree) (h : Reachable s) :
    AVLTree.inorder (s.balance) = AVLTree.inorder s
    ∧ (s.balance).size_ = node_count (s.balance).root := by
  obtain ⟨-, hp⟩ := reachable_inv h
  obtain ⟨g1, g2, g3⟩ := foldl_insert_sorted (AVLTree.inorder s) ⟨.leaf, 0⟩ Avl.leaf
    (by simpa using hp)
  refine ⟨?_, ?_⟩
  · rw [AVLTree.balance]
    show inorder_recursive (((AVLTree.inorder s).foldl AVLTree.insert ⟨.leaf, 0⟩).root)
      = AVLTree.inorder s
    rw [g2]
    rfl
  · rw [AVLTree.balance, node_count_eq_length, g2, g3]
    simp [AVLTree.inorder, inorder_recursive]

/-- C10 (witness): `balance()` on the size-desynced state reached by
`insert 1; insert 1` keeps the in-order sequence `[1]` and resynchronizes
the counter to the single stored node. -/
theorem C10_witness :
    AVLTree.inorder (((AVLTree.emptyTree.insert 1).insert 1).balance) = [1]
    ∧ (((AVLTree.emptyTree.insert 1).insert 1).balance).size_ = 1 := by
  have h := C10_balance_inorder_and_size _
    (Reachable.insert _ 1 (Reachable.insert _ 1 Reachable.empty))
  exact ⟨by rw [h.1]; rfl, by rw [h.2]; rfl⟩
